import Mathlib

/-!
Verification of the gopkgcp extraction tool (src/main.go) against its
natural-language specification.  The Go functions are shallowly embedded:
pure string predicates become Lean functions on `String` / `List Char`,
the file-system operations of the tree copier and the module rewriter
become functions over explicit tree / list models of the file system, and
I/O failures become explicit boolean fault flags threaded through the model.
-/

namespace Gopkgcp

/-! ## Go string primitives (strings.HasPrefix / HasSuffix / TrimPrefix / ReplaceAll) -/

/-- Go `strings.HasPrefix(s, pre)`, on the character list underlying the string. -/
def goHasPrefix (s pre : String) : Bool :=
  pre.data.isPrefixOf s.data

/-- Go `strings.HasSuffix(s, suf)`. -/
def goHasSuffix (s suf : String) : Bool :=
  suf.data.isSuffixOf s.data

/-- Go `strings.TrimPrefix(s, pre)`: removes `pre` from the front of `s` when it is
present, otherwise returns `s` unchanged. -/
def goTrimPrefix (s pre : String) : String :=
  if pre.data.isPrefixOf s.data then ⟨s.data.drop pre.data.length⟩ else s

/-- Whether `pat` occurs as a contiguous substring of `s` (Go `strings.Contains`). -/
def occursIn (pat : List Char) : List Char → Bool
  | [] => pat.isPrefixOf []
  | c :: rest => pat.isPrefixOf (c :: rest) || occursIn pat rest

/-- The scanning loop of Go `strings.ReplaceAll` for a non-empty pattern `o :: os`:
at each position, if the pattern matches, emit `new` and resume after the matched
characters (non-overlapping), otherwise keep the character and move on.  The `Nat`
argument is fuel bounding the number of scanning steps; `goReplaceAll` supplies
`s.length`, which always suffices since every step consumes at least one character. -/
def replaceCore (o : Char) (os new : List Char) : Nat → List Char → List Char
  | _, [] => []
  | 0, s => s
  | fuel + 1, c :: rest =>
    if (o :: os).isPrefixOf (c :: rest) then
      new ++ replaceCore o os new fuel (rest.drop os.length)
    else
      c :: replaceCore o os new fuel rest

/-- Go `strings.ReplaceAll(s, old, new)`: replaces all non-overlapping occurrences of
`old` with `new`, left to right.  An empty `old` matches at the start of the string
and after every character, as documented for the Go function. -/
def goReplaceAll (old new s : List Char) : List Char :=
  match old with
  | [] => new ++ (s.map (fun c => c :: new)).flatten
  | o :: os => replaceCore o os new s.length s

/-! ## Path Classifier (src/main.go `shouldSkipDir`, `shouldCopyFile`) -/

/-- src/main.go `shouldSkipDir`: true when the name equals or ends with an entry of
the fixed block-list. -/
def shouldSkipDir (name : String) : Bool :=
  ["testdata", "vendor", ".git", "_test"].any (fun s => name == s || goHasSuffix name s)

/-- src/main.go `shouldCopyFile`: Go source files that are not test files, plus a
fixed allow-list of auxiliary file names. -/
def shouldCopyFile (name : String) : Bool :=
  if goHasSuffix name ".go" then
    if goHasSuffix name "_test.go" then false else true
  else
    ["go.mod", "go.sum", "LICENSE", "README.md"].any (fun f => name == f)

/-! ## Module Rewriter (src/main.go `replaceModuleInFiles`)

`filepath.Walk` visits every file under the output directory; the model is the
flat list of visited regular files, each with its name, content and permission
mode.  Read/write faults are not modelled here (the claims about the rewriter
concern its error-free behaviour). -/

/-- A regular file as seen by the rewriter walk: base name, content, permission mode. -/
structure FileRec where
  name : String
  content : List Char
  mode : Nat
deriving DecidableEq

/-- Go `os.WriteFile(path, content, perm)` on a path that already exists as a regular
file (the rewriter reads the file first, so it exists): the content is truncated and
rewritten, and the permission argument is only applied when a file is created, so the
existing mode is kept. -/
def goWriteFile (f : FileRec) (newContent : List Char) (perm : Nat) : FileRec :=
  { f with content := newContent }

/-- The per-file body of src/main.go `replaceModuleInFiles`: skip names that neither
end in ".go" nor equal "go.mod"; otherwise replace `oldModule` by `newModule` in the
content and write the file back only when the content changed.  The boolean records
whether a write was performed. -/
def processFile (oldModule newModule : String) (f : FileRec) : FileRec × Bool :=
  if !goHasSuffix f.name ".go" && f.name != "go.mod" then
    (f, false)
  else
    let newContent := goReplaceAll oldModule.data newModule.data f.content
    if newContent ≠ f.content then (goWriteFile f newContent f.mode, true)
    else (f, false)

/-- src/main.go `replaceModuleInFiles`, over the list of files visited by the walk. -/
def replaceModuleInFiles (oldModule newModule : String) (files : List FileRec) :
    List (FileRec × Bool) :=
  files.map (fun f => processFile oldModule newModule f)

/-! ## Tree Copier (src/main.go `copyDir`, `copyFile`)

The source tree is modelled with explicit fault flags standing for the I/O errors
the Go code can hit: `failOpen` on a file makes `os.Open` fail in `copyFile`;
`statFail` on a directory makes the initial `os.Stat` fail and `readFail` makes
`os.ReadDir` fail.  The destination is a tree whose directory contents are
association lists keyed by entry name; copying threads the destination state so
that partial results of failed copies stay observable. -/

mutual
/-- A node of the source tree handed to `copyDir`. -/
inductive SrcNode : Type where
  | file (name : String) (mode : Nat) (content : List Char) (failOpen : Bool)
  | dir (name : String) (mode : Nat) (statFail readFail : Bool) (entries : SrcForest)

/-- The ordered entries of a source directory (as returned by `os.ReadDir`). -/
inductive SrcForest : Type where
  | nil
  | cons (head : SrcNode) (tail : SrcForest)
end

/-- A node of the destination tree. -/
inductive DstNode : Type where
  | file (mode : Nat) (content : List Char)
  | dir (mode : Nat) (entries : List (String × DstNode))

/-- Look up the destination entry with the given name. -/
def getEntry : List (String × DstNode) → String → Option DstNode
  | [], _ => none
  | (k, v) :: rest, n => if k = n then some v else getEntry rest n

/-- Store a destination entry under the given name, replacing an existing one. -/
def setEntry : List (String × DstNode) → String → DstNode → List (String × DstNode)
  | [], n, d => [(n, d)]
  | (k, v) :: rest, n, d => if k = n then (n, d) :: rest else (k, v) :: setEntry rest n d

/-- src/main.go `copyFile`, acting on whatever currently exists at the destination
path: a failing `os.Open` of the source leaves the destination untouched; opening an
existing directory for writing fails; an existing regular file is truncated and
rewritten, keeping its mode (the mode argument of `os.OpenFile` only applies on
creation); otherwise the file is created with the source's mode.  The boolean is the
returned error. -/
def copyFileInto (mode : Nat) (content : List Char) (failOpen : Bool)
    (existing : Option DstNode) : Option DstNode × Bool :=
  if failOpen then (existing, true)
  else
    match existing with
    | some (DstNode.dir dm des) => (some (DstNode.dir dm des), true)
    | some (DstNode.file fm _) => (some (DstNode.file fm content), false)
    | none => (some (DstNode.file mode content), false)

mutual
/-- src/main.go `copyDir`, acting on whatever currently exists at the destination
path: after a successful `os.Stat` of the source, `os.MkdirAll` creates the
destination directory with the source's mode (an existing directory is kept as is,
mode included; an existing regular file makes `os.MkdirAll` fail), then the source
entries are processed in order.  Invoking it on a source path that is a regular file
still creates the destination directory and then fails when reading the source's
entries.  The boolean is the returned error. -/
def copyDirInto : SrcNode → Option DstNode → Option DstNode × Bool
  | SrcNode.file _ mode _ _, existing =>
    match existing with
    | some (DstNode.file fm fc) => (some (DstNode.file fm fc), true)
    | some (DstNode.dir dm des) => (some (DstNode.dir dm des), true)
    | none => (some (DstNode.dir mode []), true)
  | SrcNode.dir _ mode statFail readFail entries, existing =>
    if statFail then (existing, true)
    else
      match existing with
      | some (DstNode.file fm fc) => (some (DstNode.file fm fc), true)
      | some (DstNode.dir dm des) =>
        if readFail then (some (DstNode.dir dm des), true)
        else
          let r := copyEntriesInto entries des
          (some (DstNode.dir dm r.1), r.2)
      | none =>
        if readFail then (some (DstNode.dir mode []), true)
        else
          let r := copyEntriesInto entries []
          (some (DstNode.dir mode r.1), r.2)

/-- The entry loop of src/main.go `copyDir`: skipped directories and filtered-out
files are ignored; a failing nested copy aborts the loop at once, keeping the
destination entries written so far. -/
def copyEntriesInto : SrcForest → List (String × DstNode) → List (String × DstNode) × Bool
  | SrcForest.nil, des => (des, false)
  | SrcForest.cons (SrcNode.dir n m sf rf es) rest, des =>
    if shouldSkipDir n then copyEntriesInto rest des
    else
      let r := copyDirInto (SrcNode.dir n m sf rf es) (getEntry des n)
      let des' := match r.1 with
        | some d => setEntry des n d
        | none => des
      if r.2 then (des', true) else copyEntriesInto rest des'
  | SrcForest.cons (SrcNode.file n m c fo) rest, des =>
    if shouldCopyFile n then
      let r := copyFileInto m c fo (getEntry des n)
      let des' := match r.1 with
        | some d => setEntry des n d
        | none => des
      if r.2 then (des', true) else copyEntriesInto rest des'
    else copyEntriesInto rest des
end

/-- The name of a source entry (as reported by `os.ReadDir`). -/
def srcName : SrcNode → String
  | SrcNode.file n _ _ _ => n
  | SrcNode.dir n _ _ _ _ => n

/-- The entry names of a source directory, in order. -/
def forestNames : SrcForest → List String
  | SrcForest.nil => []
  | SrcForest.cons s t => srcName s :: forestNames t

/-- Whether a list of names has no duplicates. -/
def namesDistinct : List String → Bool
  | [] => true
  | n :: rest => (decide (n ∉ rest)) && namesDistinct rest

mutual
/-- Well-formedness of a source tree: sibling entry names are distinct at every
level, as the real file system guarantees. -/
def wfSrc : SrcNode → Bool
  | SrcNode.file _ _ _ _ => true
  | SrcNode.dir _ _ _ _ es => namesDistinct (forestNames es) && wfForest es

/-- Well-formedness of every tree in a forest, plus distinctness of its names. -/
def wfForest : SrcForest → Bool
  | SrcForest.nil => true
  | SrcForest.cons s t => wfSrc s && wfForest t
end

mutual
/-- Whether invoking `copyDir` on this source node hits an I/O fault somewhere:
its own stat or read-dir fault, or a fault in a nested entry that the copy
actually visits (skipped directories and filtered-out files are not visited). -/
def faultIn : SrcNode → Bool
  | SrcNode.file _ _ _ _ => true
  | SrcNode.dir _ _ sf rf es => sf || rf || forestFault es

/-- Whether some visited entry of the forest carries a fault. -/
def forestFault : SrcForest → Bool
  | SrcForest.nil => false
  | SrcForest.cons (SrcNode.file n _ _ fo) t => (shouldCopyFile n && fo) || forestFault t
  | SrcForest.cons (SrcNode.dir n m sf rf es) t =>
    (!shouldSkipDir n && faultIn (SrcNode.dir n m sf rf es)) || forestFault t
end

/-! ## Orchestrator (src/main.go `main`) -/

/-- The goda scope selector chosen from the module-only flag (src/main.go lines 46-49):
this is the only place the flag is consulted. -/
def selectorOf (moduleOnly : Bool) : String :=
  if moduleOnly then ":mod" else ":all"

/-- `filepath.Join` of two path elements, for already-clean inputs: empty elements
are dropped, otherwise the elements are joined with a separator. -/
def goJoin (a b : String) : String :=
  if a.data = [] then b
  else if b.data = [] then a
  else ⟨a.data ++ '/' :: b.data⟩

/-- The relative extraction path computed in the copy loop (src/main.go lines 93-94):
strip the module path prefix, then strip one leading "/". -/
def relPathOf (modulePath dep : String) : String :=
  goTrimPrefix (goTrimPrefix dep modulePath) "/"

/-- The per-dependency copy loop of src/main.go `main` (lines 83-108), as the list of
(source, destination) pairs handed to `copyDir`.  The loop skips any dependency whose
identifier does not start with the module path; it never consults the `moduleOnly`
flag, which only feeds `selectorOf`. -/
def mainCopyPlan (moduleOnly : Bool) (modulePath moduleDir output : String)
    (deps : List String) : List (String × String) :=
  deps.filterMap (fun dep =>
    if !goHasPrefix dep modulePath then none
    else
      let relPath := relPathOf modulePath dep
      some (goJoin moduleDir relPath, goJoin output relPath))

/-- The error handling of the same loop: a failing `copyDir` (abstracted by the
`copyErr` oracle on the dependency identifier) is logged and the loop continues with
the next dependency; the result is the final `copied` counter. -/
def mainLoop (modulePath : String) (copyErr : String → Bool) : List String → Nat
  | [] => 0
  | dep :: rest =>
    if !goHasPrefix dep modulePath then mainLoop modulePath copyErr rest
    else if copyErr dep then mainLoop modulePath copyErr rest
    else mainLoop modulePath copyErr rest + 1

/-! ## General lemmas -/

/-- Boolean prefix test agrees with the prefix relation. -/
theorem isPrefixOf_true_iff (l₁ l₂ : List Char) : l₁.isPrefixOf l₂ = true ↔ l₁ <+: l₂ :=
  List.isPrefixOf_iff_prefix

/-! ## Claim C4 -/

/-- C4: for every name, `shouldSkipDir` returns true iff the name equals, or ends
with, one of "testdata", "vendor", ".git", "_test"; in particular "foo_test" is
skipped while "utils", "src", "internal" and "protest" are not, and neither is the
empty name. -/
theorem c4_shouldSkipDir_spec :
    (∀ name : String,
      shouldSkipDir name = true ↔
        ((name = "testdata" ∨ "testdata".data <:+ name.data) ∨
         (name = "vendor" ∨ "vendor".data <:+ name.data) ∨
         (name = ".git" ∨ ".git".data <:+ name.data) ∨
         (name = "_test" ∨ "_test".data <:+ name.data)))
    ∧ shouldSkipDir "foo_test" = true
    ∧ shouldSkipDir "utils" = false ∧ shouldSkipDir "src" = false
    ∧ shouldSkipDir "internal" = false ∧ shouldSkipDir "protest" = false
    ∧ shouldSkipDir "" = false := by
  refine ⟨fun name => ?_, by decide, by decide, by decide, by decide, by decide, by decide⟩
  simp only [shouldSkipDir, goHasSuffix, List.any_cons, List.any_nil, Bool.or_eq_true,
    Bool.or_false, beq_iff_eq, List.isSuffixOf_iff_suffix]

/-! ## Claim C5 -/

/-- C5: for every name, `shouldCopyFile` returns true iff the name ends in ".go" but
not in "_test.go", or equals one of "go.mod", "go.sum", "LICENSE", "README.md"; all
other names (including the empty one) yield false. -/
theorem c5_shouldCopyFile_spec :
    (∀ name : String,
      shouldCopyFile name = true ↔
        ((".go".data <:+ name.data ∧ ¬ "_test.go".data <:+ name.data) ∨
         name = "go.mod" ∨ name = "go.sum" ∨ name = "LICENSE" ∨ name = "README.md"))
    ∧ shouldCopyFile "main.go" = true ∧ shouldCopyFile "main_test.go" = false
    ∧ shouldCopyFile "go.mod" = true ∧ shouldCopyFile "go.sum" = true
    ∧ shouldCopyFile "LICENSE" = true ∧ shouldCopyFile "README.md" = true
    ∧ shouldCopyFile "notes.txt" = false ∧ shouldCopyFile "config.json" = false
    ∧ shouldCopyFile "config.yaml" = false ∧ shouldCopyFile "" = false := by
  refine ⟨fun name => ?_, by decide, by decide, by decide, by decide, by decide, by decide,
    by decide, by decide, by decide, by decide⟩
  by_cases h1 : goHasSuffix name ".go"
  · by_cases h2 : goHasSuffix name "_test.go"
    · simp only [shouldCopyFile, h1, h2, if_true]
      have hs1 : ".go".data <:+ name.data := by
        have := h1; simpa [goHasSuffix] using this
      have hs2 : "_test.go".data <:+ name.data := by
        have := h2; simpa [goHasSuffix] using this
      constructor
      · intro h; exact absurd h (by simp)
      · rintro (⟨_, hn⟩ | h | h | h | h)
        · exact absurd hs2 hn
        all_goals (subst h; revert hs1; decide)
    · simp only [shouldCopyFile, h1, h2, if_true, if_false]
      have hs1 : ".go".data <:+ name.data := by simpa [goHasSuffix] using h1
      have hs2 : ¬ "_test.go".data <:+ name.data := by simpa [goHasSuffix] using h2
      simp [hs1, hs2]
  · simp only [shouldCopyFile, h1, if_false, Bool.false_eq_true]
    have hs1 : ¬ ".go".data <:+ name.data := by simpa [goHasSuffix] using h1
    simp only [List.any_cons, List.any_nil, Bool.or_eq_true, Bool.or_false, beq_iff_eq]
    constructor
    · tauto
    · rintro (⟨hgo, _⟩ | h | h | h | h)
      · exact absurd hgo hs1
      all_goals tauto

/-! ## Claim C3 -/

/-- C3: a Package Identifier is in-module iff the Module Identifier is a literal
prefix of it (no path-boundary awareness: "github.com/x/foo" also matches
"github.com/x/foobar"); the relative extraction path is the identifier with the
module prefix removed and then one leading "/" removed if present, and an
identifier equal to the module yields the empty relative path. -/
theorem c3_dependency_selector_spec :
    ∀ m p : String,
      (goHasPrefix p m = true ↔ m.data <+: p.data)
      ∧ (∀ r : List Char, p.data = m.data ++ r →
          (relPathOf m p).data = if r.head? = some '/' then r.tail else r)
      ∧ (relPathOf m m).data = []
      ∧ goHasPrefix "github.com/x/foobar" "github.com/x/foo" = true := by
  intro m p
  have key : ∀ (q : String) (r : List Char), q.data = m.data ++ r →
      (relPathOf m q).data = if r.head? = some '/' then r.tail else r := by
    intro q r hr
    have hpre : m.data.isPrefixOf q.data = true :=
      (isPrefixOf_true_iff m.data q.data).2 ⟨r, hr.symm⟩
    have h1 : goTrimPrefix q m = (⟨r⟩ : String) := by
      unfold goTrimPrefix
      rw [hpre]
      simp only [if_true]
      apply congrArg String.mk
      rw [hr, List.drop_left]
    unfold relPathOf
    rw [h1]
    unfold goTrimPrefix
    cases r with
    | nil => simp [List.isPrefixOf]
    | cons c r' =>
      by_cases hc : c = '/'
      · subst hc
        have : ("/".data).isPrefixOf ('/' :: r') = true := by
          simp [List.isPrefixOf]
        rw [this]
        simp
      · have : ("/".data).isPrefixOf (c :: r') = false := by
          simp [List.isPrefixOf]
          exact fun h => absurd h.symm hc
        rw [this]
        simp [hc]
  refine ⟨?_, key p, ?_, by decide⟩
  · exact isPrefixOf_true_iff m.data p.data
  · have h := key m [] (by simp)
    simpa using h

/-- C3 witness: for module "github.com/x/foo", the dependency "github.com/x/foo/bar"
maps to the relative path "bar". -/
theorem c3_witness :
    (relPathOf "github.com/x/foo" "github.com/x/foo/bar").data = "bar".data := by
  have h := (c3_dependency_selector_spec "github.com/x/foo" "github.com/x/foo/bar").2.1
    "/bar".data (by decide)
  simpa using h

/-! ## Claim C1 -/

/-- C1 (evaluation of the code at the failing input): with module-only mode
inactive, an external dependency still produces no `copyDir` invocation — the copy
loop skips any identifier that does not start with the module path, no matter the
flag, which only selects the goda scope expression. -/
theorem c1_code_behavior :
    goHasPrefix "golang.org/x/sync/errgroup" "github.com/openai/openai-go/v3" = false
    ∧ mainCopyPlan false "github.com/openai/openai-go/v3" "/home/u/openai-go" "/out"
        ["golang.org/x/sync/errgroup"] = []
    ∧ selectorOf false = ":all" ∧ selectorOf true = ":mod" := by
  exact ⟨by decide, by decide, rfl, rfl⟩

/-! ## Replacement lemmas -/

/-- If the (non-empty) pattern does not occur in the string, the replacement scan
returns the string unchanged. -/
theorem replaceCore_of_occursIn_eq_false (o : Char) (os new : List Char) :
    ∀ (s : List Char) (fuel : Nat), occursIn (o :: os) s = false → s.length ≤ fuel →
      replaceCore o os new fuel s = s := by
  intro s
  induction s with
  | nil => intro fuel _ _; cases fuel <;> rfl
  | cons c rest ih =>
    intro fuel hocc hlen
    cases fuel with
    | zero => simp at hlen
    | succ fuel =>
      have h1 : (o :: os).isPrefixOf (c :: rest) = false ∧ occursIn (o :: os) rest = false := by
        simpa [occursIn] using hocc
      simp only [replaceCore, h1.1, Bool.false_eq_true, if_false]
      have := ih fuel h1.2 (by simpa using Nat.le_of_succ_le_succ hlen)
      rw [this]

/-- Go `strings.ReplaceAll` is the identity on strings not containing the pattern. -/
theorem goReplaceAll_of_occursIn_eq_false (old new s : List Char)
    (h : occursIn old s = false) : goReplaceAll old new s = s := by
  match old with
  | [] =>
    exfalso
    cases s <;> simp [occursIn, List.isPrefixOf] at h
  | o :: os => exact replaceCore_of_occursIn_eq_false o os new s s.length h (Nat.le_refl _)

/-- The rewriter leaves a file alone whenever the old module string does not occur
in its content. -/
theorem processFile_of_occursIn_eq_false (oldM newM : String) (f : FileRec)
    (h : occursIn oldM.data f.content = false) :
    processFile oldM newM f = (f, false) := by
  unfold processFile
  split
  · rfl
  · rw [goReplaceAll_of_occursIn_eq_false _ _ _ h]
    simp

/-! ## Claim C2 -/

/-- C2: the rewriter processes exactly the files whose name ends in ".go" or equals
"go.mod": for those, the content becomes the global non-overlapping literal
replacement of the old module string and a write happens exactly when the content
changed; every other file is returned byte-for-byte unchanged with no write, even
when its content contains the old module string. -/
theorem c2_rewriter_scope :
    ∀ (oldM newM : String) (files : List FileRec),
      (replaceModuleInFiles oldM newM files).length = files.length
      ∧ ∀ (i : Nat) (h1 : i < files.length)
          (h2 : i < (replaceModuleInFiles oldM newM files).length),
          ((¬ ".go".data <:+ (files.get ⟨i, h1⟩).name.data ∧ (files.get ⟨i, h1⟩).name ≠ "go.mod") →
            (replaceModuleInFiles oldM newM files).get ⟨i, h2⟩ = (files.get ⟨i, h1⟩, false))
          ∧ ((".go".data <:+ (files.get ⟨i, h1⟩).name.data ∨ (files.get ⟨i, h1⟩).name = "go.mod") →
              ((replaceModuleInFiles oldM newM files).get ⟨i, h2⟩).1.name = (files.get ⟨i, h1⟩).name
              ∧ ((replaceModuleInFiles oldM newM files).get ⟨i, h2⟩).1.mode = (files.get ⟨i, h1⟩).mode
              ∧ ((replaceModuleInFiles oldM newM files).get ⟨i, h2⟩).1.content
                  = goReplaceAll oldM.data newM.data (files.get ⟨i, h1⟩).content
              ∧ (((replaceModuleInFiles oldM newM files).get ⟨i, h2⟩).2 = true
                  ↔ goReplaceAll oldM.data newM.data (files.get ⟨i, h1⟩).content
                      ≠ (files.get ⟨i, h1⟩).content))
          ∧ (occursIn oldM.data (files.get ⟨i, h1⟩).content = false →
              (replaceModuleInFiles oldM newM files).get ⟨i, h2⟩ = (files.get ⟨i, h1⟩, false)) := by
  intro oldM newM files
  refine ⟨by simp [replaceModuleInFiles], ?_⟩
  intro i h1 h2
  have hget : (replaceModuleInFiles oldM newM files).get ⟨i, h2⟩
      = processFile oldM newM (files.get ⟨i, h1⟩) := by
    simp [replaceModuleInFiles]
  set f := files.get ⟨i, h1⟩ with hf
  refine ⟨?_, ?_, ?_⟩
  · intro hnomatch
    rw [hget]
    unfold processFile
    have hcond : (!goHasSuffix f.name ".go" && f.name != "go.mod") = true := by
      have hgo : (".go".data.isSuffixOf f.name.data) = false := by
        rw [Bool.eq_false_iff]
        intro hx
        exact hnomatch.1 (by simpa using hx)
      simp [goHasSuffix, hgo, hnomatch.2]
    rw [if_pos hcond]
  · intro hmatch
    rw [hget]
    unfold processFile
    have hcond : (!goHasSuffix f.name ".go" && f.name != "go.mod") = false := by
      rcases hmatch with hgo | hm
      · simp [goHasSuffix, hgo]
      · simp [hm]
    rw [hcond]
    simp only [Bool.false_eq_true, if_false]
    by_cases hch : goReplaceAll oldM.data newM.data f.content ≠ f.content
    · rw [if_pos hch]
      simp [goWriteFile, hch]
    · rw [if_neg hch]
      push_neg at hch
      simp [hch]
  · intro hocc
    rw [hget]
    exact processFile_of_occursIn_eq_false oldM newM f hocc

/-- C2 witness: a ".txt" file whose content contains the old module string is left
untouched with no write. -/
theorem c2_witness :
    (replaceModuleInFiles "github.com/a/b" "example.org/c"
        [FileRec.mk "notes.txt" "github.com/a/b".data 420]).get ⟨0, by decide⟩
      = (FileRec.mk "notes.txt" "github.com/a/b".data 420, false) :=
  ((c2_rewriter_scope "github.com/a/b" "example.org/c"
      [FileRec.mk "notes.txt" "github.com/a/b".data 420]).2 0 (by decide) (by decide)).1
    (by decide)

/-! ## Claim C10 -/

/-- C10: the rewrite changes no visited file's permission mode, whether or not the
file's content was rewritten. -/
theorem c10_rewriter_preserves_modes :
    ∀ (oldM newM : String) (files : List FileRec),
      (replaceModuleInFiles oldM newM files).map (fun p => p.1.mode)
        = files.map (fun f => f.mode) := by
  intro oldM newM files
  induction files with
  | nil => rfl
  | cons f rest ih =>
    simp only [replaceModuleInFiles, List.map_cons] at ih ⊢
    have hm : (processFile oldM newM f).1.mode = f.mode := by
      unfold processFile goWriteFile
      split
      · rfl
      · dsimp only
        split <;> rfl
    rw [hm, ih]

/-! ## Claim C6 -/

/-- A file in which the old module string no longer occurs passes through the
rewriter unchanged and without a write. -/
theorem processFile_stable (oldM newM : String) (q : FileRec)
    (h : (".go".data.isSuffixOf q.name.data || q.name == "go.mod") = true →
      occursIn oldM.data q.content = false) :
    processFile oldM newM q = (q, false) := by
  unfold processFile
  by_cases hf : (!goHasSuffix q.name ".go" && q.name != "go.mod") = true
  · rw [if_pos hf]
  · rw [if_neg hf]
    have hcond : (".go".data.isSuffixOf q.name.data || q.name == "go.mod") = true := by
      revert hf
      unfold goHasSuffix
      cases hgo : ".go".data.isSuffixOf q.name.data <;>
        cases hmod : q.name == "go.mod" <;> simp_all
    have hocc := h hcond
    simp only [goReplaceAll_of_occursIn_eq_false _ _ _ hocc]
    simp

/-- C6 counterexample: with old module "aa" and new module "a", a file containing
"aaa" becomes "aa" on the first run — the old string still occurs — and the second
run changes the content again and performs a write, so the claimed universal
idempotence fails. -/
theorem c6_counterexample :
    replaceModuleInFiles "aa" "a" [FileRec.mk "a.go" "aaa".data 420]
      = [(FileRec.mk "a.go" "aa".data 420, true)]
    ∧ occursIn "aa".data "aa".data = true
    ∧ replaceModuleInFiles "aa" "a" [FileRec.mk "a.go" "aa".data 420]
      = [(FileRec.mk "a.go" "a".data 420, true)] :=
  ⟨by decide, by decide, by decide⟩

/-- C6 (amended): the second run of the rewriter is a no-op — same files, no write
performed — provided the first run left no occurrence of the old module string in
any file the rewriter processes. -/
theorem c6_amended_rewrite_idempotent :
    ∀ (oldM newM : String) (files : List FileRec),
      (∀ p ∈ replaceModuleInFiles oldM newM files,
        (".go".data.isSuffixOf p.1.name.data || p.1.name == "go.mod") = true →
          occursIn oldM.data p.1.content = false) →
      replaceModuleInFiles oldM newM ((replaceModuleInFiles oldM newM files).map Prod.fst)
        = (replaceModuleInFiles oldM newM files).map (fun p => (p.1, false)) := by
  intro oldM newM files
  induction files with
  | nil => intro _; rfl
  | cons f rest ih =>
    intro h
    simp only [replaceModuleInFiles, List.map_cons] at h ⊢
    have hh := h _ (List.mem_cons_self _ _)
    have ih' := ih (fun p hp => h p (List.mem_cons_of_mem _ hp))
    simp only [replaceModuleInFiles, List.map_cons] at ih'
    rw [processFile_stable oldM newM _ hh, ih']

/-- C6 witness: a typical module rename, where the new module string does not
reintroduce the old one, satisfies the amended idempotence. -/
theorem c6_witness :
    replaceModuleInFiles "github.com/a/b" "example.org/c"
        ((replaceModuleInFiles "github.com/a/b" "example.org/c"
          [FileRec.mk "x.go" "import github.com/a/b/util".data 420]).map Prod.fst)
      = (replaceModuleInFiles "github.com/a/b" "example.org/c"
          [FileRec.mk "x.go" "import github.com/a/b/util".data 420]).map
          (fun p => (p.1, false)) :=
  c6_amended_rewrite_idempotent "github.com/a/b" "example.org/c" _ (by decide)



/-! ## Fault propagation lemmas (claim C7) -/

theorem faultP_file (n : String) (m : Nat) (c : List Char) (fo : Bool) :
    faultIn (SrcNode.file n m c fo) = true →
      ∀ e, (copyDirInto (SrcNode.file n m c fo) e).2 = true := by
  intro _ e
  rcases e with _ | d
  · rfl
  · cases d <;> rfl

theorem faultP_dir (n : String) (m : Nat) (sf rf : Bool) (es : SrcForest)
    (ih : forestFault es = true → ∀ des, (copyEntriesInto es des).2 = true) :
    faultIn (SrcNode.dir n m sf rf es) = true →
      ∀ e, (copyDirInto (SrcNode.dir n m sf rf es) e).2 = true := by
  intro hft e
  have hsum : sf = true ∨ rf = true ∨ forestFault es = true := by
    have := hft
    simp [faultIn, Bool.or_eq_true] at this
    tauto
  by_cases hsf : sf = true
  · simp [copyDirInto, hsf]
  · have hsf' : sf = false := by simpa using hsf
    rcases e with _ | d
    · by_cases hrf : rf = true
      · simp [copyDirInto, hsf', hrf]
      · have hrf' : rf = false := by simpa using hrf
        have hff : forestFault es = true := by
          rcases hsum with h | h | h
          · rw [h] at hsf'; cases hsf'
          · rw [h] at hrf'; cases hrf'
          · exact h
        simp [copyDirInto, hsf', hrf', ih hff []]
    · cases d with
      | file fm fc => simp [copyDirInto, hsf']
      | dir dm des =>
        by_cases hrf : rf = true
        · simp [copyDirInto, hsf', hrf]
        · have hrf' : rf = false := by simpa using hrf
          have hff : forestFault es = true := by
            rcases hsum with h | h | h
            · rw [h] at hsf'; cases hsf'
            · rw [h] at hrf'; cases hrf'
            · exact h
          simp [copyDirInto, hsf', hrf', ih hff des]

theorem faultQ_nil :
    forestFault SrcForest.nil = true →
      ∀ des, (copyEntriesInto SrcForest.nil des).2 = true := by
  intro h
  simp [forestFault] at h

theorem faultQ_cons (head : SrcNode) (tail : SrcForest)
    (ihP : faultIn head = true → ∀ e, (copyDirInto head e).2 = true)
    (ihQ : forestFault tail = true → ∀ des, (copyEntriesInto tail des).2 = true) :
    forestFault (SrcForest.cons head tail) = true →
      ∀ des, (copyEntriesInto (SrcForest.cons head tail) des).2 = true := by
  intro hft des
  cases head with
  | file n m c fo =>
    have hsum : (shouldCopyFile n && fo) = true ∨ forestFault tail = true := by
      simpa [forestFault, Bool.or_eq_true] using hft
    by_cases hcf : shouldCopyFile n = true
    · by_cases hr : (copyFileInto m c fo (getEntry des n)).2 = true
      · simp [copyEntriesInto, hcf, hr]
      · have hfo : fo = false := by
          rcases hfo : fo with _ | _
          · rfl
          · exfalso; apply hr; simp [copyFileInto, hfo]
        have htail : forestFault tail = true := by
          rcases hsum with h | h
          · rw [hfo] at h; simp at h
          · exact h
        simp [copyEntriesInto, hcf, hr, ihQ htail]
    · have hcf' : shouldCopyFile n = false := by simpa using hcf
      have htail : forestFault tail = true := by
        rcases hsum with h | h
        · rw [hcf'] at h; simp at h
        · exact h
      simp [copyEntriesInto, hcf', ihQ htail des]
  | dir n m sf rf es =>
    have hsum : (!shouldSkipDir n && faultIn (SrcNode.dir n m sf rf es)) = true
        ∨ forestFault tail = true := by
      simpa [forestFault, Bool.or_eq_true] using hft
    by_cases hsk : shouldSkipDir n = true
    · have htail : forestFault tail = true := by
        rcases hsum with h | h
        · rw [hsk] at h; simp at h
        · exact h
      simp [copyEntriesInto, hsk, ihQ htail des]
    · have hsk' : shouldSkipDir n = false := by simpa using hsk
      by_cases hr : (copyDirInto (SrcNode.dir n m sf rf es) (getEntry des n)).2 = true
      · simp [copyEntriesInto, hsk', hr]
      · have hnf : faultIn (SrcNode.dir n m sf rf es) = false := by
          rcases hq : faultIn (SrcNode.dir n m sf rf es) with _ | _
          · rfl
          · exfalso; exact hr (ihP hq (getEntry des n))
        have htail : forestFault tail = true := by
          rcases hsum with h | h
          · rw [hnf] at h; simp at h
          · exact h
        simp [copyEntriesInto, hsk', hr, ihQ htail]

theorem fault_node_all (s : SrcNode) :
    faultIn s = true → ∀ e, (copyDirInto s e).2 = true :=
  @SrcNode.rec
    (fun s => faultIn s = true → ∀ e, (copyDirInto s e).2 = true)
    (fun l => forestFault l = true → ∀ des, (copyEntriesInto l des).2 = true)
    faultP_file faultP_dir faultQ_nil faultQ_cons s

theorem mainLoop_eq_filter_length (m : String) (ce : String → Bool) :
    ∀ deps : List String,
      mainLoop m ce deps = (deps.filter (fun d => goHasPrefix d m && !ce d)).length := by
  intro deps
  induction deps with
  | nil => rfl
  | cons d rest ih =>
    by_cases h1 : goHasPrefix d m = true
    · by_cases h2 : ce d = true
      · simp [mainLoop, h1, h2, List.filter, ih]
      · have h2' : ce d = false := by simpa using h2
        simp [mainLoop, h1, h2', List.filter, ih]
    · have h1' : goHasPrefix d m = false := by simpa using h1
      simp [mainLoop, h1', List.filter, ih]



/-! ## Claim C7 -/

/-- C7: error-handling asymmetry — within a single `copyDir` invocation, an I/O
fault at any depth among the visited entries makes the whole invocation return an
error (fail-fast, propagated to the caller), while the orchestrator's loop treats a
per-package copy failure as non-fatal: every dependency is still examined and the
final counter counts exactly the in-module dependencies whose copy succeeded. -/
theorem c7_error_asymmetry :
    (∀ (s : SrcNode) (e : Option DstNode), faultIn s = true → (copyDirInto s e).2 = true)
    ∧ (∀ (m : String) (copyErr : String → Bool) (deps : List String),
        mainLoop m copyErr deps
          = (deps.filter (fun d => goHasPrefix d m && !copyErr d)).length) :=
  ⟨fun s e h => fault_node_all s h e,
   fun m ce deps => mainLoop_eq_filter_length m ce deps⟩

/-- C7 witness: a tree with a failing nested file copy makes the whole `copyDir`
error, and a loop with a failing middle package still copies the later one. -/
theorem c7_witness :
    (copyDirInto
        (SrcNode.dir "pkg" 493 false false
          (SrcForest.cons (SrcNode.file "good.go" 420 ['x'] false)
            (SrcForest.cons (SrcNode.file "bad.go" 420 ['y'] true) SrcForest.nil)))
        none).2 = true
    ∧ mainLoop "github.com/x" (fun d => d == "github.com/x/bad")
        ["github.com/x/a", "github.com/x/bad", "github.com/x/b", "golang.org/y"] = 2 :=
  ⟨c7_error_asymmetry.1 _ none (by decide),
   by rw [c7_error_asymmetry.2]; decide⟩

/-! ## Claim C9 -/

/-- C9: `copyDir` is not atomic on failure — once the initial stat of the source
succeeds, the destination directory is created (with the source directory's mode)
before any source entry is read, and it remains, together with any files already
copied, whenever the invocation later fails; no cleanup is performed.  The concrete
conjunct shows a read-dir-successful run that fails on its second file yet leaves
the directory and the first file in place. -/
theorem c9_no_cleanup :
    (∀ (n : String) (m : Nat) (rf : Bool) (es : SrcForest),
      ∃ des, (copyDirInto (SrcNode.dir n m false rf es) none).1 = some (DstNode.dir m des))
    ∧ copyDirInto
        (SrcNode.dir "pkg" 493 false false
          (SrcForest.cons (SrcNode.file "a.go" 420 ['x'] false)
            (SrcForest.cons (SrcNode.file "b.go" 420 ['y'] true) SrcForest.nil)))
        none
      = (some (DstNode.dir 493 [("a.go", DstNode.file 420 ['x'])]), true) := by
  constructor
  · intro n m rf es
    by_cases hrf : rf = true
    · exact ⟨[], by simp [copyDirInto, hrf]⟩
    · have hrf' : rf = false := by simpa using hrf
      exact ⟨(copyEntriesInto es []).1, by simp [copyDirInto, hrf']⟩
  · rfl

/-! ## Destination-state lemmas (claim C8) -/

theorem getEntry_setEntry_self (des : List (String × DstNode)) (n : String) (d : DstNode) :
    getEntry (setEntry des n d) n = some d := by
  induction des with
  | nil => simp [setEntry, getEntry]
  | cons kv rest ih =>
    obtain ⟨k, v⟩ := kv
    by_cases hk : k = n
    · simp [setEntry, hk, getEntry]
    · simp [setEntry, hk, getEntry, ih]

theorem getEntry_setEntry_ne (des : List (String × DstNode)) (n k : String) (d : DstNode)
    (h : k ≠ n) : getEntry (setEntry des n d) k = getEntry des k := by
  induction des with
  | nil => simp [setEntry, getEntry, Ne.symm h]
  | cons kv rest ih =>
    obtain ⟨k', v⟩ := kv
    by_cases hk : k' = n
    · subst hk
      simp [setEntry, getEntry, Ne.symm h]
    · simp [setEntry, hk, getEntry, ih]

theorem setEntry_eq_of_getEntry (des : List (String × DstNode)) (n : String) (d : DstNode)
    (h : getEntry des n = some d) : setEntry des n d = des := by
  induction des with
  | nil => simp [getEntry] at h
  | cons kv rest ih =>
    obtain ⟨k, v⟩ := kv
    by_cases hk : k = n
    · subst hk
      simp [getEntry] at h
      simp [setEntry, h]
    · simp [getEntry, hk] at h
      simp [setEntry, hk, ih h]



theorem copyEntries_frame (l : SrcForest) :
    ∀ (des : List (String × DstNode)) (k : String), k ∉ forestNames l →
      getEntry (copyEntriesInto l des).1 k = getEntry des k := by
  refine @SrcForest.rec (fun _ => True)
    (fun l => ∀ des k, k ∉ forestNames l →
      getEntry (copyEntriesInto l des).1 k = getEntry des k)
    (fun _ _ _ _ => trivial) (fun _ _ _ _ _ _ => trivial) ?_ ?_ l
  · intro des k _
    rfl
  · intro head tail _ ih des k hk
    have hk1 : k ≠ srcName head := by
      intro he; exact hk (by simp [forestNames, he])
    have hk2 : k ∉ forestNames tail := fun he => hk (by simp [forestNames, he])
    cases head with
    | file n m c fo =>
      have hk1' : k ≠ n := by simpa [srcName] using hk1
      by_cases hcf : shouldCopyFile n = true
      · simp only [copyEntriesInto, hcf, if_true]
        have hdes' : ∀ x : Option DstNode,
            getEntry (match x with | some d => setEntry des n d | none => des) k
              = getEntry des k := by
          intro x
          rcases x with _ | d
          · rfl
          · exact getEntry_setEntry_ne des n k d hk1'
        by_cases hr2 : (copyFileInto m c fo (getEntry des n)).2 = true
        · simp only [hr2, if_true]
          exact hdes' _
        · have hr2' : (copyFileInto m c fo (getEntry des n)).2 = false := by simpa using hr2
          simp only [hr2', Bool.false_eq_true, if_false]
          rw [ih _ k hk2, hdes' _]
      · have hcf' : shouldCopyFile n = false := by simpa using hcf
        simp only [copyEntriesInto, hcf', Bool.false_eq_true, if_false]
        exact ih des k hk2
    | dir n m sf rf es =>
      have hk1' : k ≠ n := by simpa [srcName] using hk1
      by_cases hsk : shouldSkipDir n = true
      · simp only [copyEntriesInto, hsk, if_true]
        exact ih des k hk2
      · have hsk' : shouldSkipDir n = false := by simpa using hsk
        simp only [copyEntriesInto, hsk', Bool.false_eq_true, if_false]
        have hdes' : ∀ x : Option DstNode,
            getEntry (match x with | some d => setEntry des n d | none => des) k
              = getEntry des k := by
          intro x
          rcases x with _ | d
          · rfl
          · exact getEntry_setEntry_ne des n k d hk1'
        by_cases hr2 : (copyDirInto (SrcNode.dir n m sf rf es) (getEntry des n)).2 = true
        · simp only [hr2, if_true]
          exact hdes' _
        · have hr2' : (copyDirInto (SrcNode.dir n m sf rf es) (getEntry des n)).2 = false := by
            simpa using hr2
          simp only [hr2', Bool.false_eq_true, if_false]
          rw [ih _ k hk2, hdes' _]



theorem copyFileInto_success (m : Nat) (c : List Char) (fo : Bool) (ex : Option DstNode)
    (h : (copyFileInto m c fo ex).2 = false) :
    fo = false ∧ ∃ w, copyFileInto m c fo ex = (some (DstNode.file w c), false) := by
  cases hfo : fo with
  | true => rw [hfo] at h; simp [copyFileInto] at h
  | false =>
    refine ⟨rfl, ?_⟩
    rcases ex with _ | e'
    · exact ⟨m, rfl⟩
    · cases e' with
      | file fm fc => exact ⟨fm, rfl⟩
      | dir dm des => rw [hfo] at h; simp [copyFileInto] at h

theorem copyDirInto_success_some (s : SrcNode) (e x : Option DstNode)
    (h : copyDirInto s e = (x, false)) : ∃ d, x = some d := by
  cases s with
  | file n m c fo =>
    exfalso
    rcases e with _ | e'
    · simp [copyDirInto] at h
    · cases e' <;> simp [copyDirInto] at h
  | dir n m sf rf es =>
    by_cases hsf : sf = true
    · exfalso; simp [copyDirInto, hsf] at h
    · have hsf' : sf = false := by simpa using hsf
      rcases e with _ | e'
      · by_cases hrf : rf = true
        · exfalso; simp [copyDirInto, hsf', hrf] at h
        · have hrf' : rf = false := by simpa using hrf
          simp only [copyDirInto, hsf', hrf', Bool.false_eq_true, if_false] at h
          rw [Prod.mk.injEq] at h
          exact ⟨_, h.1.symm⟩
      · cases e' with
        | file fm fc => exfalso; simp [copyDirInto, hsf'] at h
        | dir dm des =>
          by_cases hrf : rf = true
          · exfalso; simp [copyDirInto, hsf', hrf] at h
          · have hrf' : rf = false := by simpa using hrf
            simp only [copyDirInto, hsf', hrf', Bool.false_eq_true, if_false] at h
            rw [Prod.mk.injEq] at h
            exact ⟨_, h.1.symm⟩

theorem stableP_file (n : String) (m : Nat) (c : List Char) (fo : Bool) :
    wfSrc (SrcNode.file n m c fo) = true →
      ∀ e d, copyDirInto (SrcNode.file n m c fo) e = (some d, false) →
        copyDirInto (SrcNode.file n m c fo) (some d) = (some d, false) := by
  intro _ e d h
  exfalso
  rcases e with _ | e'
  · simp [copyDirInto] at h
  · cases e' <;> simp [copyDirInto] at h

theorem stableP_dir (n : String) (m : Nat) (sf rf : Bool) (es : SrcForest)
    (ih : (namesDistinct (forestNames es) && wfForest es) = true →
      ∀ des0 desF, copyEntriesInto es des0 = (desF, false) →
        copyEntriesInto es desF = (desF, false)) :
    wfSrc (SrcNode.dir n m sf rf es) = true →
      ∀ e d, copyDirInto (SrcNode.dir n m sf rf es) e = (some d, false) →
        copyDirInto (SrcNode.dir n m sf rf es) (some d) = (some d, false) := by
  intro hwf e d h
  have ihQ := ih (by simpa [wfSrc] using hwf)
  by_cases hsf : sf = true
  · exfalso; simp [copyDirInto, hsf] at h
  · have hsf' : sf = false := by simpa using hsf
    rcases e with _ | e'
    · by_cases hrf : rf = true
      · exfalso; simp [copyDirInto, hsf', hrf] at h
      · have hrf' : rf = false := by simpa using hrf
        simp only [copyDirInto, hsf', hrf', Bool.false_eq_true, if_false] at h
        rw [Prod.mk.injEq] at h
        obtain ⟨h1, h2⟩ := h
        have hd : d = DstNode.dir m (copyEntriesInto es []).1 := by
          injection h1 with h1'; exact h1'.symm
        subst hd
        have hstep : copyEntriesInto es [] = ((copyEntriesInto es []).1, false) := by
          rw [← h2]
        have hre := ihQ [] (copyEntriesInto es []).1 hstep
        simp only [copyDirInto, hsf', hrf', Bool.false_eq_true, if_false, hre]
    · cases e' with
      | file fm fc => exfalso; simp [copyDirInto, hsf'] at h
      | dir dm des =>
        by_cases hrf : rf = true
        · exfalso; simp [copyDirInto, hsf', hrf] at h
        · have hrf' : rf = false := by simpa using hrf
          simp only [copyDirInto, hsf', hrf', Bool.false_eq_true, if_false] at h
          rw [Prod.mk.injEq] at h
          obtain ⟨h1, h2⟩ := h
          have hd : d = DstNode.dir dm (copyEntriesInto es des).1 := by
            injection h1 with h1'; exact h1'.symm
          subst hd
          have hstep : copyEntriesInto es des = ((copyEntriesInto es des).1, false) := by
            rw [← h2]
          have hre := ihQ des (copyEntriesInto es des).1 hstep
          simp only [copyDirInto, hsf', hrf', Bool.false_eq_true, if_false, hre]

theorem stableQ_nil :
    (namesDistinct (forestNames SrcForest.nil) && wfForest SrcForest.nil) = true →
      ∀ des0 desF, copyEntriesInto SrcForest.nil des0 = (desF, false) →
        copyEntriesInto SrcForest.nil desF = (desF, false) := by
  intro _ des0 desF _
  rfl



theorem stableQ_cons (head : SrcNode) (tail : SrcForest)
    (ihP : wfSrc head = true →
      ∀ e d, copyDirInto head e = (some d, false) → copyDirInto head (some d) = (some d, false))
    (ihQ : (namesDistinct (forestNames tail) && wfForest tail) = true →
      ∀ des0 desF, copyEntriesInto tail des0 = (desF, false) →
        copyEntriesInto tail desF = (desF, false)) :
    (namesDistinct (forestNames (SrcForest.cons head tail))
        && wfForest (SrcForest.cons head tail)) = true →
      ∀ des0 desF, copyEntriesInto (SrcForest.cons head tail) des0 = (desF, false) →
        copyEntriesInto (SrcForest.cons head tail) desF = (desF, false) := by
  intro hwf des0 desF h
  have hwf' : (srcName head ∉ forestNames tail)
      ∧ namesDistinct (forestNames tail) = true
      ∧ (wfSrc head = true ∧ wfForest tail = true) := by
    simpa [forestNames, namesDistinct, wfForest, Bool.and_eq_true, and_assoc,
      decide_eq_true_eq] using hwf
  have hne := hwf'.1
  have hdt := hwf'.2.1
  have hwh := hwf'.2.2.1
  have hwt := hwf'.2.2.2
  have hQ := ihQ (by simp [Bool.and_eq_true, hdt, hwt])
  cases head with
  | file n m c fo =>
    have hne' : n ∉ forestNames tail := by simpa [srcName] using hne
    by_cases hcf : shouldCopyFile n = true
    · simp only [copyEntriesInto] at h ⊢
      rw [if_pos hcf] at h ⊢
      by_cases hr2 : (copyFileInto m c fo (getEntry des0 n)).2 = true
      · exfalso
        rw [if_pos hr2] at h
        have h2 := congrArg Prod.snd h
        simp at h2
      · rw [if_neg hr2] at h
        have hr2' : (copyFileInto m c fo (getEntry des0 n)).2 = false := by simpa using hr2
        obtain ⟨hfo, w, hw⟩ := copyFileInto_success m c fo (getEntry des0 n) hr2'
        rw [hw] at h
        dsimp only at h
        have hdF : (copyEntriesInto tail (setEntry des0 n (DstNode.file w c))).1 = desF := by
          rw [h]
        have hgF : getEntry desF n = some (DstNode.file w c) := by
          rw [← hdF, copyEntries_frame tail _ n hne', getEntry_setEntry_self]
        have hcalc : copyFileInto m c fo (getEntry desF n)
            = (some (DstNode.file w c), false) := by
          rw [hgF, hfo]
          rfl
        rw [hcalc]
        dsimp only
        rw [setEntry_eq_of_getEntry _ _ _ hgF]
        exact hQ _ desF h
    · simp only [copyEntriesInto] at h ⊢
      rw [if_neg hcf] at h ⊢
      exact hQ des0 desF h
  | dir n m sf rf es =>
    have hne' : n ∉ forestNames tail := by simpa [srcName] using hne
    by_cases hsk : shouldSkipDir n = true
    · simp only [copyEntriesInto] at h ⊢
      rw [if_pos hsk] at h ⊢
      exact hQ des0 desF h
    · simp only [copyEntriesInto] at h ⊢
      rw [if_neg hsk] at h ⊢
      by_cases hr2 : (copyDirInto (SrcNode.dir n m sf rf es) (getEntry des0 n)).2 = true
      · exfalso
        rw [if_pos hr2] at h
        have h2 := congrArg Prod.snd h
        simp at h2
      · rw [if_neg hr2] at h
        have hr2' : (copyDirInto (SrcNode.dir n m sf rf es) (getEntry des0 n)).2 = false := by
          simpa using hr2
        have hpair : copyDirInto (SrcNode.dir n m sf rf es) (getEntry des0 n)
            = ((copyDirInto (SrcNode.dir n m sf rf es) (getEntry des0 n)).1, false) := by
          rw [← hr2']
        obtain ⟨d0, hd0⟩ := copyDirInto_success_some _ _ _ hpair
        rw [hd0] at h
        dsimp only at h
        have hdF : (copyEntriesInto tail (setEntry des0 n d0)).1 = desF := by
          rw [h]
        have hgF : getEntry desF n = some d0 := by
          rw [← hdF, copyEntries_frame tail _ n hne', getEntry_setEntry_self]
        have hstab : copyDirInto (SrcNode.dir n m sf rf es) (some d0) = (some d0, false) :=
          ihP hwh (getEntry des0 n) d0 (hpair.trans (by rw [hd0]))
        rw [hgF, hstab]
        dsimp only
        rw [setEntry_eq_of_getEntry _ _ _ hgF]
        exact hQ _ desF h

theorem stable_node_all (s : SrcNode) :
    wfSrc s = true →
      ∀ e d, copyDirInto s e = (some d, false) → copyDirInto s (some d) = (some d, false) :=
  @SrcNode.rec
    (fun s => wfSrc s = true →
      ∀ e d, copyDirInto s e = (some d, false) → copyDirInto s (some d) = (some d, false))
    (fun l => (namesDistinct (forestNames l) && wfForest l) = true →
      ∀ des0 desF, copyEntriesInto l des0 = (desF, false) →
        copyEntriesInto l desF = (desF, false))
    stableP_file stableP_dir stableQ_nil stableQ_cons s


/-! ## Claim C8 -/

/-- C8: the Tree Copier tolerates duplicate copy attempts idempotently — for a
well-formed source tree whose first copy into an empty destination succeeded,
running `copyDir` again over the already-copied destination returns no error and
leaves the destination exactly as after the single run (existing directories and
files are overwritten, not rejected); and the copy loop processes dependencies in
input order with no sorting or deduplication (it is a homomorphism over list
concatenation, so duplicated input entries yield duplicated copy attempts). -/
theorem c8_copy_idempotent :
    (∀ (s : SrcNode) (d : DstNode), wfSrc s = true →
      copyDirInto s none = (some d, false) →
      copyDirInto s (some d) = (some d, false))
    ∧ (∀ (b : Bool) (m md o : String) (deps1 deps2 : List String),
        mainCopyPlan b m md o (deps1 ++ deps2)
          = mainCopyPlan b m md o deps1 ++ mainCopyPlan b m md o deps2)
    ∧ mainCopyPlan true "github.com/x" "/m" "/o" ["github.com/x/a", "github.com/x/a"]
        = [("/m/a", "/o/a"), ("/m/a", "/o/a")] :=
  ⟨fun s d hwf h => stable_node_all s hwf none d h,
   fun _ _ _ _ d1 d2 => List.filterMap_append d1 d2 _,
   by decide⟩

/-- C8 witness: re-copying a one-file package over its own first copy succeeds and
changes nothing. -/
theorem c8_witness :
    copyDirInto
        (SrcNode.dir "pkg" 493 false false
          (SrcForest.cons (SrcNode.file "a.go" 420 ['x'] false) SrcForest.nil))
        (some (DstNode.dir 493 [("a.go", DstNode.file 420 ['x'])]))
      = (some (DstNode.dir 493 [("a.go", DstNode.file 420 ['x'])]), false) :=
  c8_copy_idempotent.1 _ _ (by rfl) (by rfl)

end Gopkgcp
